import Mathlib

/-!
# Verification of the conky periodic task scheduling core

A shallow embedding of the scheduler in `src/thread.cc` / `src/thread.hh`
(namespace `conky`): registered work items (`thread_base`), the registry
(`thread_container`), dedup-on-register with merging, the per-tick driver
`run_all_threads`, the key hash combinator `priv::hash`, and the shared
worker pool (`priv::task_pool`).

Machine integers are modelled as `Nat` with explicit reduction modulo the
type width where the C++ arithmetic can wrap (`uint32_t` for `period` /
`remaining`, `uint8_t` for `unused`, `size_t` for hashes).
-/

namespace ConkySched

/-- Modulus of `uint32_t` (`period`, `remaining`, `to_wait`). -/
def u32 : Nat := 4294967296

/-- Modulus of `uint8_t` (`unused`). -/
def u8 : Nat := 256

/-- Modulus of `size_t` (hash values). -/
def u64 : Nat := 18446744073709551616

/-- `UNUSED_MAX` from thread.cc line 33: ticks of grace for an item with no
external holders. -/
def UNUSED_MAX : Nat := 5

/-!
## Key hashing (`priv::hash`, thread.hh lines 243-248)

`std::hash` on an integral key is the identity on its value (reduced into
`size_t`), so a key field is modelled directly by its hash value below
`u64`.
-/

/-- Single-argument overload of `priv::hash`: the standard hash of the head,
a `size_t`. -/
def hash1 (head : Nat) : Nat := head % u64

/-- `priv::hash(head, tail...)` (thread.hh lines 243-248): fold of the
per-field standard hashes with the multiplicative constant 47, in `size_t`
arithmetic.  The first argument is the head field, the list holds the tail
fields in order. -/
def hashFold : Nat → List Nat → Nat
  | head, [] => hash1 head
  | head, t :: ts => (hash1 head + 47 * hashFold t ts) % u64

/-- Combined hash of a whole (nonempty) key tuple, given as a list. -/
def privHash : List Nat → Nat
  | [] => 0
  | h :: t => hashFold h t

/-!
## Work items (`thread_base`, thread.cc)

The equality contract distinguishes the `task_base` default
(`operator==` returns `false`, `get_hash` returns the object's own address,
thread.hh lines 62-63) from the `key_mergable` mixin (tuple equality,
thread.hh lines 136-137).  Object addresses are modelled by a per-item
identity `iid`, allocated freshly by the registry.
-/

/-- Equality contract of a work item: `plain` is the `task_base` default,
`keyed` is the `key_mergable` mixin with its ordered tuple of key fields. -/
inductive EqKind where
  | plain : EqKind
  | keyed : List Nat → EqKind
deriving DecidableEq, Repr

/-- A registered work item (`thread_base`, thread.cc lines 36-43): hash,
schedule state, `wait` flag, liveness counter, plus its dynamic type `tid`,
its identity `iid` (the object's address) and the count `extRefs` of handles
held outside the registry (`unique()` on the registry's `shared_ptr` is
`extRefs = 0`). -/
structure ThreadBase where
  tid : Nat
  iid : Nat
  hash : Nat
  period : Nat
  remaining : Nat
  wait : Bool
  unused : Nat
  eqk : EqKind
  extRefs : Nat
deriving DecidableEq, Repr

/-- Virtual `operator==` as invoked by the registry: `false` for plain
`task_base` items (thread.hh line 62), tuple equality for `key_mergable`
(thread.hh lines 136-137). -/
def taskEq (a b : ThreadBase) : Bool :=
  match a.eqk, b.eqk with
  | .keyed ka, .keyed kb => ka = kb
  | _, _ => false

/-- `thread_container::is_equal` (thread.cc lines 100-109): hash check, then
dynamic type check, then virtual `operator==`. -/
def is_equal (a b : ThreadBase) : Bool :=
  if a.hash ≠ b.hash then false
  else if a.tid ≠ b.tid then false
  else taskEq a b

/-- `thread_base::merge` (thread.cc lines 111-119): adopt the other item's
period when it is strictly smaller, resetting the countdown in that case;
reset the liveness counter.  The `assert(wait == other.wait)` is modelled as
a guard: `none` is an assertion failure (abort). -/
def merge (self other : ThreadBase) : Option ThreadBase :=
  let self' :=
    if other.period < self.period then
      { self with period := other.period, remaining := 0 }
    else self
  if self'.wait = other.wait then some { self' with unused := 0 } else none

/-!
## The registry (`thread_container`, thread.cc)

The container's field declarations live in the old thread.hh, which is not
part of this source snapshot; modelled from the spec: the registry owns a
set of handles (here a list of items plus a fresh-address supply) and a
shared completion semaphore.  All behaviour below is translated from
thread.cc.
-/

/-- A registration request: dynamic type, period, `wait` flag and equality
contract of the item the caller constructs.  (`use_pipe` only affects the
signalling pipe, which plays no role in the registry logic.) -/
structure RegReq where
  tid : Nat
  period : Nat
  wait : Bool
  eqk : EqKind
deriving DecidableEq, Repr

/-- Hash of a freshly constructed item: the `key_mergable` tuple hash for
keyed items, the object's own address for plain ones (`task_base::get_hash`,
thread.hh line 63). -/
def hashOf (iid : Nat) (r : RegReq) : Nat :=
  match r.eqk with
  | .plain => iid % u64
  | .keyed k => privHash k

/-- The candidate item built by `register` before insertion
(`thread_base::thread_base`, thread.cc lines 36-43): countdown and liveness
start at 0; one external handle (the one about to be returned). -/
def mkCand (iid : Nat) (r : RegReq) : ThreadBase :=
  { tid := r.tid, iid := iid, hash := hashOf iid r, period := r.period % u32,
    remaining := 0, wait := r.wait, unused := 0, eqk := r.eqk, extRefs := 1 }

/-- `threads.insert(h)` followed by the merge of
`thread_container::do_register_thread` (thread.cc lines 132-140): walk the
set; on an equal element, merge the candidate into it (the candidate is
discarded, the surviving entry gains the caller's handle) and return the old
item's identity; otherwise insert the candidate.  `none` propagates a merge
assertion failure. -/
def insertMerge (cand : ThreadBase) : List ThreadBase → Option (List ThreadBase × Nat)
  | [] => some ([cand], cand.iid)
  | t :: ts =>
    if is_equal t cand then
      match merge t cand with
      | none => none
      | some m => some ({ m with extRefs := t.extRefs + 1 } :: ts, t.iid)
    else
      match insertMerge cand ts with
      | none => none
      | some (ts', id) => some (t :: ts', id)

/-- The registry: the set of registered items and the next fresh object
address. -/
structure Container where
  threads : List ThreadBase
  nextId : Nat
deriving DecidableEq, Repr

/-- `thread_container::do_register_thread` (thread.cc lines 132-140) at the
registry level: construct the candidate, insert-or-merge, return the
canonical item's identity. -/
def do_register_thread (c : Container) (r : RegReq) : Option (Container × Nat) :=
  match insertMerge (mkCand c.nextId r) c.threads with
  | none => none
  | some (ts, id) => some ({ threads := ts, nextId := c.nextId + 1 }, id)

/-- Look an item up by identity. -/
def findItem (c : Container) (id : Nat) : Option ThreadBase :=
  c.threads.find? (fun t => t.iid = id)

/-!
## One tick (`thread_container::run_all_threads`, thread.cc lines 143-167)

The loop body for one item, translated clause by clause:

* `thr.remaining-- == 0`: the countdown is post-decremented unconditionally
  (wrapping in `uint32_t` when it is 0);
* on a due item, `!i->unique() || ++thr.unused < UNUSED_MAX` short-circuits:
  `unused` is incremented (in `uint8_t`) only when the registry holds the
  only reference;
* a triggered item gets `remaining = period - 1` (again `uint32_t`) and is
  started via `thr.run(sem_wait)`;
* afterwards any item whose `unused` equals `UNUSED_MAX` is erased.
-/

/-- Effect of the loop body on one item: the item afterwards (`none` when it
is erased) and whether it was triggered this call.  The four branches spell
out the loop body: the post-decremented countdown (wrapping in `uint32_t`
at 0) survives only in the branches where no trigger overwrites it with
`period - 1`, and the final `unused == UNUSED_MAX` erasure check is applied
to each branch's result. -/
def tickItem (t : ThreadBase) : Option ThreadBase × Bool :=
  if t.remaining = 0 then
    if t.extRefs ≠ 0 then
      ((if t.unused = UNUSED_MAX then none
        else some { t with remaining := (t.period + (u32 - 1)) % u32 }), true)
    else
      if (t.unused + 1) % u8 < UNUSED_MAX then
        ((if (t.unused + 1) % u8 = UNUSED_MAX then none
          else some { t with remaining := (t.period + (u32 - 1)) % u32,
                             unused := (t.unused + 1) % u8 }), true)
      else
        ((if (t.unused + 1) % u8 = UNUSED_MAX then none
          else some { t with remaining := (t.remaining + (u32 - 1)) % u32,
                             unused := (t.unused + 1) % u8 }), false)
  else
    ((if t.unused = UNUSED_MAX then none
      else some { t with remaining := (t.remaining + (u32 - 1)) % u32 }), false)

/-- The whole loop of `run_all_threads` over the registered items: the items
that survive, the `(iid, wait)` pairs of the items triggered this call in
loop order, and the loop's `wait` counter (`if(thr.wait) ++wait`, thread.cc
lines 153-154). -/
def run_all_threads : List ThreadBase → List ThreadBase × List (Nat × Bool) × Nat
  | [] => ([], [], 0)
  | t :: ts =>
    ((match (tickItem t).1 with
      | none => (run_all_threads ts).1
      | some t2 => t2 :: (run_all_threads ts).1),
     (if (tickItem t).2 then (t.iid, t.wait) :: (run_all_threads ts).2.1
      else (run_all_threads ts).2.1),
     (run_all_threads ts).2.2 + (if (tickItem t).2 && t.wait then 1 else 0))

/-- The final wait loop of `run_all_threads` (thread.cc lines 165-166)
blocks on `sem_wait` once per triggered item with `wait == true`; this is
the number of those waits. -/
def waitCount (trigd : List (Nat × Bool)) : Nat :=
  (trigd.filter (fun p => p.2)).length

/-- Identities of the items triggered this call whose `wait` flag is set
(the tick-synchronous ones). -/
def syncIds (trigd : List (Nat × Bool)) : List Nat :=
  (trigd.filter (fun p => p.2)).map (fun p => p.1)

/-- Iterated per-item ticks, for a single item whose registry never contains
anything else: `none` once the item has been erased. -/
def tickN (t : ThreadBase) : Nat → Option ThreadBase
  | 0 => some t
  | n + 1 =>
    match tickN t n with
    | none => none
    | some s => (tickItem s).1

/-- `run_all_threads` at the registry level. -/
def runC (c : Container) : Container × List (Nat × Bool) × Nat :=
  let r := run_all_threads c.threads
  ({ threads := r.1, nextId := c.nextId }, r.2)

/-!
## Tick traces (thread.cc lines 50-75 and 143-167)

Event semantics for one `run_all_threads` call interleaved with the worker
threads.  The coordinator triggers every due item inside the loop (each
trigger posts the item's `sem_start`, never blocking), then performs
`waitCount` waits on the shared completion semaphore `sem_wait`.  A worker
of a triggered item with `wait == true` executes `work()` and then posts
`sem_wait` exactly once per start signal (`start_routine`, thread.cc lines
60-75).
-/

/-- Events of one tick: the coordinator triggering item `i`, a worker
finishing its unit of work for item `i`, the worker's post of `sem_wait`
for item `i`, and one return of the coordinator's `sem_wait.wait()`. -/
inductive Ev where
  | trig : Nat → Ev
  | finish : Nat → Ev
  | post : Nat → Ev
  | waitRet : Ev
deriving DecidableEq, Repr

def isWaitEv : Ev → Bool
  | .waitRet => true
  | _ => false

def isPostEv : Ev → Bool
  | .post _ => true
  | _ => false

/-- The coordinator's own event sequence for one call: the loop's triggers
in order, then `w` returns of `sem_wait.wait()` (`w` is the loop's wait
counter). -/
def coordEvents (trigd : List (Nat × Bool)) (w : Nat) : List Ev :=
  trigd.map (fun p => Ev.trig p.1) ++ List.replicate w Ev.waitRet

/-- Counting-semaphore discipline for `sem_wait`, starting at 0: no prefix
of the interleaved trace has more completed waits than posts. -/
def semOk (t : List Ev) : Prop :=
  ∀ k, k ≤ t.length → (t.take k).countP isWaitEv ≤ (t.take k).countP isPostEv

/-- A post of `sem_wait` can only come from a tick-synchronous item
triggered this call (`start_routine` posts only when `wait` is set, and the
semaphore starts the tick at 0). -/
def postIn (S : List Nat) : Ev → Prop
  | .post i => i ∈ S
  | _ => True

instance (S : List Nat) (e : Ev) : Decidable (postIn S e) := by
  cases e <;> simp [postIn] <;> infer_instance

def postOnly (S : List Nat) (t : List Ev) : Prop :=
  ∀ e ∈ t, postIn S e

/-- Each triggered item posts `sem_wait` at most once per tick (one
`work()` per start signal; redundant signals are drained). -/
def postOnce (t : List Ev) : Prop :=
  ∀ i : Nat, t.count (Ev.post i) ≤ 1

/-- A worker posts `sem_wait` only after its `work()` for this tick has
returned (thread.cc lines 71-73). -/
def fbpAt (pre : List Ev) : Ev → Prop
  | .post i => Ev.finish i ∈ pre
  | _ => True

instance (pre : List Ev) (e : Ev) : Decidable (fbpAt pre e) := by
  cases e <;> simp [fbpAt] <;> infer_instance

def finishBeforePost (t : List Ev) : Prop :=
  ∀ k, k < t.length → fbpAt (t.take k) (t.getD k Ev.waitRet)

/-!
## The dedicated worker loop (`thread_base::start_routine`, thread.cc 60-75)

A small-step machine for one item's worker thread together with its
`sem_start` semaphore.  `pending` is the semaphore's count; the coordinator
may post it at any time (`thread_base::run`, thread.cc lines 50-58).  The
worker: waits on `sem_start`; exits if `done`; drains any redundant pending
posts with `trywait`; runs `work()` (the span from `beginW` to `endW`);
loops.
-/

inductive WPhase where
  | idle : WPhase
  | draining : WPhase
  | working : WPhase
  | stopped : WPhase
deriving DecidableEq, Repr

/-- State of one worker: pending `sem_start` posts, position in the loop,
and the termination flag. -/
structure WState where
  pending : Nat
  phase : WPhase
  doneFlag : Bool
deriving DecidableEq, Repr

/-- Observable worker events: a unit of work beginning and ending. -/
inductive WEv where
  | beginW : WEv
  | endW : WEv
deriving DecidableEq, Repr

/-- One step of the worker machine, labelled with the events it emits.
`signal` is the coordinator's `run()` posting `sem_start`; `wake` is
`sem_start.wait()` returning with the done flag clear; `wakeDone` the same
with the flag set (the loop exits); `drain` one successful
`sem_start.trywait()`; `beginWork` the failing `trywait` followed by entry
into `work()`; `endWork` the return of `work()`. -/
inductive WStep : WState → List WEv → WState → Prop where
  | signal (s : WState) :
      WStep s [] { s with pending := s.pending + 1 }
  | wake (s : WState) (n : Nat) (hp : s.phase = .idle) (hn : s.pending = n + 1)
      (hd : s.doneFlag = false) :
      WStep s [] { s with pending := n, phase := .draining }
  | wakeDone (s : WState) (n : Nat) (hp : s.phase = .idle) (hn : s.pending = n + 1)
      (hd : s.doneFlag = true) :
      WStep s [] { s with pending := n, phase := .stopped }
  | drain (s : WState) (n : Nat) (hp : s.phase = .draining) (hn : s.pending = n + 1) :
      WStep s [] { s with pending := n }
  | beginWork (s : WState) (hp : s.phase = .draining) (hn : s.pending = 0) :
      WStep s [WEv.beginW] { s with phase := .working }
  | endWork (s : WState) (hp : s.phase = .working) :
      WStep s [WEv.endW] { s with phase := .idle }

/-- Multi-step runs of the worker machine, accumulating emitted events. -/
inductive WSteps : WState → List WEv → WState → Prop where
  | refl (s : WState) : WSteps s [] s
  | tail (s₁ s₂ s₃ : WState) (tr ev : List WEv)
      (hs : WSteps s₁ tr s₂) (h : WStep s₂ ev s₃) : WSteps s₁ (tr ++ ev) s₃

/-- 1 while a unit of work is in flight, 0 otherwise. -/
def inFlight (s : WState) : Nat :=
  match s.phase with
  | .working => 1
  | _ => 0

def countB (tr : List WEv) : Nat := tr.count WEv.beginW
def countE (tr : List WEv) : Nat := tr.count WEv.endW

/-!
## The shared worker pool (`priv::task_pool`, thread.hh lines 193-223)

`add` increments the pending-completions counter `to_wait` and queues the
item; `wait` runs `while(to_wait > 0) { sem.wait(); --to_wait; }`.  The pool
runner `task_pool::runner` is declared in thread.hh but its definition is
not part of this source snapshot; modelled from the spec (section 4.3):
a pool thread pops one queued item, executes its unit of work and posts the
pool-wide completion semaphore.

`to_wait` is a `uint32_t`; to give the non-negativity claim content it is
modelled as an integer in the step relation, so that an unguarded decrement
could drive it below zero.
-/

/-- Pool state: the pending-completions counter, the completion semaphore's
count, and the number of queued-but-unexecuted items. -/
structure PoolSt where
  toWait : Int
  sem : Nat
  queued : Nat
deriving DecidableEq, Repr

/-- Steps of the pool: `add` is `task_pool::add` (thread.hh lines 214-220);
`complete` is a runner finishing one queued item (modelled from the spec)
and posting `sem`; `waitIter` is one iteration of the `wait` loop
(thread.hh line 222), whose `while(to_wait > 0)` guard and blocking
`sem.wait()` are the two hypotheses. -/
inductive PoolStep : PoolSt → PoolSt → Prop where
  | add (p : PoolSt) :
      PoolStep p { p with toWait := p.toWait + 1, queued := p.queued + 1 }
  | complete (p : PoolSt) (n : Nat) (hq : p.queued = n + 1) :
      PoolStep p { p with queued := n, sem := p.sem + 1 }
  | waitIter (p : PoolSt) (n : Nat) (hw : 0 < p.toWait) (hs : p.sem = n + 1) :
      PoolStep p { p with toWait := p.toWait - 1, sem := n }

/-- Reachability from the freshly constructed pool
(`task_pool::task_pool`, thread.hh lines 205-210: `to_wait = 0`). -/
inductive PoolReach : PoolSt → Prop where
  | init : PoolReach ⟨0, 0, 0⟩
  | step (p q : PoolSt) (hp : PoolReach p) (h : PoolStep p q) : PoolReach q

/-- The `wait` loop (thread.hh line 222) as a function of the counter and
the available completions: each iteration blocks for one completion and
decrements `to_wait`; `none` marks an execution in which the loop blocks
with no completion left to consume. -/
def pool_wait : Nat → Nat → Option (Nat × Nat)
  | 0, s => some (0, s)
  | _ + 1, 0 => none
  | tw + 1, s + 1 => pool_wait tw s

/-- `task_container::run_all_tasks` (thread.hh lines 346-359): tick every
holder, dropping the ones whose `tick()` asks for removal, then block in
`pool.wait()`.  The per-holder `tick()` body is not part of this snapshot
(declared at thread.hh line 160); its scheduling logic is shared with
`run_all_threads`, which stands in for it here, with every triggered item
submitted to the pool.  `completions` abstracts how many completions the
runners have posted by the time the wait loop drains. -/
def run_all_tasks (items : List ThreadBase) (completions : Nat) :
    Option (List ThreadBase × Nat × Nat) :=
  match pool_wait (run_all_threads items).2.1.length completions with
  | none => none
  | some (tw, s) => some ((run_all_threads items).1, tw, s)

/-!
## Helper lemmas
-/

/-- Decrement in `uint32_t`: for `1 ≤ x < 2^32`, `x-1` computed as a wrap. -/
theorem dec_wrap (x : Nat) (h1 : 1 ≤ x) (h2 : x < u32) :
    (x + (u32 - 1)) % u32 = x - 1 := by
  have h : x + (u32 - 1) = (x - 1) + u32 := by unfold u32 at *; omega
  rw [h, Nat.add_mod_right]
  exact Nat.mod_eq_of_lt (by unfold u32 at *; omega)

/-- A due item with external holders is triggered, its countdown reloaded,
its liveness counter untouched. -/
theorem tickItem_due_held (t : ThreadBase) (h0 : t.remaining = 0) (hr : t.extRefs ≠ 0) :
    tickItem t = ((if t.unused = UNUSED_MAX then none
                   else some { t with remaining := (t.period + (u32 - 1)) % u32 }), true) := by
  simp [tickItem, h0, hr]

/-- An item that is not due only has its countdown decremented. -/
theorem tickItem_not_due (t : ThreadBase) (h0 : t.remaining ≠ 0) :
    tickItem t = ((if t.unused = UNUSED_MAX then none
                   else some { t with remaining := (t.remaining + (u32 - 1)) % u32 }), false) := by
  simp [tickItem, h0]

/-- A due item held only by the registry: the liveness counter is
incremented; the item is triggered while it stays below `UNUSED_MAX`, and
erased on reaching it. -/
theorem tickItem_due_unref (t : ThreadBase) (h0 : t.remaining = 0) (hr : t.extRefs = 0) :
    tickItem t =
      (if (t.unused + 1) % u8 < UNUSED_MAX then
        ((if (t.unused + 1) % u8 = UNUSED_MAX then none
          else some { t with remaining := (t.period + (u32 - 1)) % u32,
                             unused := (t.unused + 1) % u8 }), true)
       else ((if (t.unused + 1) % u8 = UNUSED_MAX then none
              else some { t with remaining := (t.remaining + (u32 - 1)) % u32,
                                 unused := (t.unused + 1) % u8 }), false)) := by
  simp [tickItem, h0, hr]

theorem tickN_add (t : ThreadBase) (a b : Nat) :
    tickN t (a + b) = (tickN t a).bind (fun s => tickN s b) := by
  induction b with
  | zero => simp [tickN]
  | succ n ih =>
    show tickN t (a + n + 1) = _
    rw [tickN, ih]
    cases tickN t a with
    | none => rfl
    | some s => simp [tickN]

theorem tickN_isSome_of_add (t : ThreadBase) (a b : Nat)
    (h : (tickN t (a + b)).isSome) : (tickN t a).isSome := by
  rw [tickN_add] at h
  cases hs : tickN t a with
  | none => rw [hs] at h; simp at h
  | some s => simp

/-- `is_equal` looks only at the hash, dynamic type and equality contract of
the candidate. -/
theorem is_equal_congr (t a b : ThreadBase) (hh : a.hash = b.hash)
    (ht : a.tid = b.tid) (he : a.eqk = b.eqk) : is_equal t a = is_equal t b := by
  unfold is_equal taskEq
  rw [hh, ht, he]

theorem taskEq_plain (a b : ThreadBase) (h : a.eqk = .plain ∨ b.eqk = .plain) :
    taskEq a b = false := by
  unfold taskEq
  rcases h with h | h
  · rw [h]
  · rw [h]
    cases h2 : a.eqk
    · rfl
    · rfl

theorem is_equal_of_taskEq_false (a b : ThreadBase) (h : taskEq a b = false) :
    is_equal a b = false := by
  unfold is_equal
  split
  · rfl
  · split
    · rfl
    · exact h

/-- When no element of the set is equal to the candidate, insertion appends
it and returns its own identity. -/
theorem insertMerge_not_found (cand : ThreadBase) (ts : List ThreadBase)
    (h : ∀ t ∈ ts, is_equal t cand = false) :
    insertMerge cand ts = some (ts ++ [cand], cand.iid) := by
  induction ts with
  | nil => rfl
  | cons t ts ih =>
    have ht : is_equal t cand = false := h t (List.mem_cons_self t ts)
    rw [insertMerge, ht]
    simp only [Bool.false_eq_true, if_false]
    rw [ih (fun x hx => h x (List.mem_cons_of_mem t hx))]
    rfl

/-- Insertion skips over an unequal initial segment. -/
theorem insertMerge_append (cand : ThreadBase) (ts l : List ThreadBase)
    (h : ∀ t ∈ ts, is_equal t cand = false) :
    insertMerge cand (ts ++ l) =
      match insertMerge cand l with
      | none => none
      | some (l', id) => some (ts ++ l', id) := by
  induction ts with
  | nil =>
    simp only [List.nil_append]
    cases hl : insertMerge cand l with
    | none => rfl
    | some p => rfl
  | cons t ts ih =>
    have ht : is_equal t cand = false := h t (List.mem_cons_self t ts)
    rw [List.cons_append, insertMerge, ht]
    simp only [Bool.false_eq_true, if_false]
    rw [ih (fun x hx => h x (List.mem_cons_of_mem t hx))]
    cases hl : insertMerge cand l with
    | none => rfl
    | some p => rfl

/-!
## Claim C5
-/

/-- C5: the claim asserts the surviving entry's countdown is reset to 0 by
every merge.  In `thread_base::merge` (thread.cc lines 113-116) the
countdown is reset only when the candidate's period is strictly smaller.
Concretely: register an item with period 5 (key tuple `[9]`), run two ticks
(countdown now 3), register an equal item with the same period 5: the call
merges (one surviving entry, identity 0, both handles) yet the surviving
countdown is 3, not 0. -/
theorem C5_counterexample :
    ((do_register_thread ⟨[], 0⟩ ⟨7, 5, true, .keyed [9]⟩).bind (fun p =>
        do_register_thread ((runC (runC p.1).1).1) ⟨7, 5, true, .keyed [9]⟩)).map
      (fun p => (p.1.threads.map (fun t => (t.iid, t.period, t.remaining, t.unused)), p.2)) =
      some ([(0, 5, 3, 0)], 0) := by
  decide

/-- C5 (amended): when `register` finds an existing equal entry and merges
the candidate into it, the surviving entry's period becomes the minimum of
the two periods, its unused counter is reset to 0, and its remaining
countdown is reset to 0 exactly when the candidate's period is strictly
smaller (otherwise it is left unchanged); the candidate is discarded and
the survivor (the old entry) is returned. -/
theorem C5_merge_amended :
    (∀ a b m : ThreadBase, merge a b = some m →
      m.period = min a.period b.period ∧ m.unused = 0 ∧
      m.remaining = (if b.period < a.period then 0 else a.remaining)) ∧
    (∀ (t cand : ThreadBase) (ts l : List ThreadBase) (id : Nat),
      is_equal t cand = true → insertMerge cand (t :: ts) = some (l, id) →
      id = t.iid ∧ l.length = ts.length + 1) := by
  constructor
  · intro a b m h
    unfold merge at h
    by_cases hp : b.period < a.period
    · simp only [hp, if_pos, ite_true] at h
      split at h
      · cases h
        refine ⟨?_, rfl, ?_⟩
        · simp only []; omega
        · simp [hp]
      · cases h
    · simp only [hp, ite_false] at h
      split at h
      · cases h
        refine ⟨?_, rfl, ?_⟩
        · simp only []; omega
        · simp [hp]
      · cases h
  · intro t cand ts l id heq hins
    rw [insertMerge, heq] at hins
    simp only [if_true] at hins
    cases hm : merge t cand with
    | none => rw [hm] at hins; cases hins
    | some m =>
      rw [hm] at hins
      cases hins
      exact ⟨rfl, by simp⟩

/-- Witness for C5 (amended): merging a period-2 candidate into a period-5
entry with countdown 3 lowers the period to 2 and resets the countdown and
the counter; the survivor of an insert-merge is the old entry. -/
theorem C5_merge_amended_witness :
    ((⟨7, 0, 9, 2, 0, true, 0, .keyed [9], 1⟩ : ThreadBase).period = min 5 2 ∧
      (⟨7, 0, 9, 2, 0, true, 0, .keyed [9], 1⟩ : ThreadBase).unused = 0 ∧
      (⟨7, 0, 9, 2, 0, true, 0, .keyed [9], 1⟩ : ThreadBase).remaining =
        (if (2 : Nat) < 5 then 0 else 3)) ∧
    ((0 : Nat) = (⟨7, 0, 9, 5, 3, true, 2, .keyed [9], 1⟩ : ThreadBase).iid ∧
      ([({ (⟨7, 0, 9, 2, 0, true, 0, .keyed [9], 1⟩ : ThreadBase) with
            extRefs := 2 })] : List ThreadBase).length = ([] : List ThreadBase).length + 1) :=
  ⟨C5_merge_amended.1 ⟨7, 0, 9, 5, 3, true, 2, .keyed [9], 1⟩
      (mkCand 1 ⟨7, 2, true, .keyed [9]⟩) ⟨7, 0, 9, 2, 0, true, 0, .keyed [9], 1⟩ (by decide),
   C5_merge_amended.2 ⟨7, 0, 9, 5, 3, true, 2, .keyed [9], 1⟩
      (mkCand 1 ⟨7, 2, true, .keyed [9]⟩) []
      [({ (⟨7, 0, 9, 2, 0, true, 0, .keyed [9], 1⟩ : ThreadBase) with extRefs := 2 })] 0
      (by decide) (by decide)⟩

/-!
## Claim C6
-/

/-- C6: the claim registers A (period 1, key `[5]`, wait = true) then B
(period 1, equal key `[5]`, wait = false) and asserts success.  But
`thread_base::merge` (thread.cc line 117) asserts `wait == other.wait`, and
the registration of B hits that failing assertion (modelled as `none`):
the scenario aborts instead of succeeding. -/
theorem C6_counterexample :
    (do_register_thread ⟨[], 0⟩ ⟨7, 1, true, .keyed [5]⟩).bind (fun p =>
      do_register_thread p.1 ⟨7, 1, false, .keyed [5]⟩) = none := by
  decide

/-- C6 (amended): registering item A (period 1, key `[5]`, wait = true) and
then item B (period 1, equal key, and the same wait flag — merging requires
equal `wait` flags) of the same concrete type succeeds, both handles name
the same underlying item (identity 0), the registry holds exactly one
entry, and one `run_all_threads` call triggers the shared worker exactly
once (one synchronous wait). -/
theorem C6_amended :
    ∃ c1 c2 : Container,
      do_register_thread ⟨[], 0⟩ ⟨7, 1, true, .keyed [5]⟩ = some (c1, 0) ∧
      do_register_thread c1 ⟨7, 1, true, .keyed [5]⟩ = some (c2, 0) ∧
      c2.threads.length = 1 ∧
      (runC c2).2.1 = [(0, true)] ∧ (runC c2).2.2 = 1 := by
  refine ⟨⟨[⟨7, 0, 5, 1, 0, true, 0, .keyed [5], 1⟩], 1⟩,
          ⟨[⟨7, 0, 5, 1, 0, true, 0, .keyed [5], 2⟩], 2⟩, ?_, ?_, ?_, ?_, ?_⟩
  all_goals decide

/-!
## Claim C10
-/

/-- C10: a concrete task type that keeps `task_base`'s default equality and
hash never merges: the default `operator==` (thread.hh line 62) returns
`false` for every argument, the default `get_hash` (thread.hh line 63) is
the object's own address, and every registration of such a task appends a
distinct fresh entry to the registry, returning the new item — no merge
occurs even with identical constructor arguments. -/
theorem C10_no_default_merge :
    (∀ (c : Container) (r : RegReq), r.eqk = .plain →
      do_register_thread c r =
        some (⟨c.threads ++ [mkCand c.nextId r], c.nextId + 1⟩, c.nextId) ∧
      (mkCand c.nextId r).hash = c.nextId % u64) ∧
    (∀ a b : ThreadBase, a.eqk = .plain ∨ b.eqk = .plain → taskEq a b = false) := by
  constructor
  · intro c r hr
    constructor
    · have hfree : ∀ t ∈ c.threads, is_equal t (mkCand c.nextId r) = false := by
        intro t _
        apply is_equal_of_taskEq_false
        apply taskEq_plain
        right
        simp [mkCand, hr]
      rw [do_register_thread, insertMerge_not_found _ _ hfree]
      rfl
    · simp [mkCand, hashOf, hr]
  · exact taskEq_plain

/-- Witness for C10 at a concrete registry: two registrations of the same
plain task type with identical arguments yield two distinct entries. -/
theorem C10_no_default_merge_witness :
    (do_register_thread ⟨[], 5⟩ ⟨3, 2, false, .plain⟩ =
      some (⟨[mkCand 5 ⟨3, 2, false, .plain⟩], 6⟩, 5) ∧
     (mkCand 5 ⟨3, 2, false, .plain⟩).hash = 5 % u64) ∧
    taskEq (mkCand 5 ⟨3, 2, false, .plain⟩) (mkCand 6 ⟨3, 2, false, .plain⟩) = false :=
  ⟨(C10_no_default_merge.1 ⟨[], 5⟩ ⟨3, 2, false, .plain⟩ rfl).imp (by simp) id,
   C10_no_default_merge.2 _ _ (Or.inl rfl)⟩

/-!
## Claim C8
-/

/-- C8: the combined hash over an ordered key tuple `(k1, ..., kn)` follows
the fold `hash(k1, ..., kn) = h(k1) + 47 * hash(k2, ..., kn)` with the
single fixed constant 47 (in `size_t` arithmetic); it is order-sensitive
(swapping two distinct fields can change the hash); and two `key_mergable`
items compare equal exactly when their key tuples agree component-wise. -/
theorem C8_hash_fold :
    (∀ (k1 k2 : Nat) (ks : List Nat),
      hashFold k1 (k2 :: ks) = (hash1 k1 + 47 * hashFold k2 ks) % u64) ∧
    hashFold 1 [2] ≠ hashFold 2 [1] ∧
    (∀ (a b : ThreadBase) (ka kb : List Nat), a.eqk = .keyed ka → b.eqk = .keyed kb →
      (taskEq a b = true ↔ ∀ i : Nat, ka.get? i = kb.get? i)) := by
  refine ⟨fun k1 k2 ks => rfl, by decide, ?_⟩
  intro a b ka kb ha hb
  unfold taskEq
  rw [ha, hb]
  simp only [decide_eq_true_eq]
  constructor
  · intro h i
    rw [h]
  · intro h
    exact List.ext_get? h

/-- Witness for C8: the fold at a two-field tuple, and tuple equality of two
concrete keyed items. -/
theorem C8_hash_fold_witness :
    (hashFold 3 [4, 5] = (hash1 3 + 47 * hashFold 4 [5]) % u64) ∧
    (taskEq ⟨7, 0, 9, 1, 0, false, 0, .keyed [4, 5], 1⟩
        ⟨7, 1, 9, 2, 0, false, 0, .keyed [4, 5], 1⟩ = true ↔
      ∀ i : Nat, ([4, 5] : List Nat).get? i = ([4, 5] : List Nat).get? i) :=
  ⟨C8_hash_fold.1 3 4 [5],
   C8_hash_fold.2.2 ⟨7, 0, 9, 1, 0, false, 0, .keyed [4, 5], 1⟩
      ⟨7, 1, 9, 2, 0, false, 0, .keyed [4, 5], 1⟩ [4, 5] [4, 5] rfl rfl⟩

/-!
## Claim C1
-/

/-- Merging two candidates of the same type, key and wait flag built by
`register`: the survivor keeps the first identity and takes the smaller
period; countdown and liveness are 0 (they already were). -/
theorem merge_mkCand (n1 n2 tid p1 p2 : Nat) (w : Bool) (k : List Nat) :
    merge (mkCand n1 ⟨tid, p1, w, .keyed k⟩) (mkCand n2 ⟨tid, p2, w, .keyed k⟩) =
      some { tid := tid, iid := n1, hash := privHash k,
             period := min (p1 % u32) (p2 % u32), remaining := 0, wait := w,
             unused := 0, eqk := .keyed k, extRefs := 1 } := by
  unfold merge mkCand hashOf
  by_cases hp : p2 % u32 < p1 % u32
  · simp [hp, Nat.min_eq_right (Nat.le_of_lt hp)]
  · simp [hp, Nat.min_eq_left (Nat.le_of_not_lt hp)]

/-- C1: two successive registrations of the same concrete type with equal
key tuples (and hence the same non-key constructor arguments, in particular
the same `wait` flag) return handles to the same underlying item — the one
created by the first call — and after the second call that item's effective
period is the minimum of the two requested periods; registration is
idempotent under equal keys. -/
theorem C1_register_idempotent (c : Container) (tid p1 p2 : Nat) (k : List Nat) (w : Bool)
    (hfree : ∀ t ∈ c.threads, is_equal t (mkCand c.nextId ⟨tid, p1, w, .keyed k⟩) = false)
    (hp1 : p1 < u32) (hp2 : p2 < u32) :
    ∃ (c1 c2 : Container) (m : ThreadBase),
      do_register_thread c ⟨tid, p1, w, .keyed k⟩ = some (c1, c.nextId) ∧
      do_register_thread c1 ⟨tid, p2, w, .keyed k⟩ = some (c2, c.nextId) ∧
      c2.threads = c.threads ++ [m] ∧ m.iid = c.nextId ∧ m.period = min p1 p2 := by
  have hm1 : p1 % u32 = p1 := Nat.mod_eq_of_lt hp1
  have hm2 : p2 % u32 = p2 := Nat.mod_eq_of_lt hp2
  have hreg1 : do_register_thread c ⟨tid, p1, w, .keyed k⟩ =
      some (⟨c.threads ++ [mkCand c.nextId ⟨tid, p1, w, .keyed k⟩], c.nextId + 1⟩, c.nextId) := by
    rw [do_register_thread, insertMerge_not_found _ _ hfree]
    rfl
  have hfree2 : ∀ t ∈ c.threads,
      is_equal t (mkCand (c.nextId + 1) ⟨tid, p2, w, .keyed k⟩) = false := by
    intro t ht
    rw [is_equal_congr t (mkCand (c.nextId + 1) ⟨tid, p2, w, .keyed k⟩)
          (mkCand c.nextId ⟨tid, p1, w, .keyed k⟩) rfl rfl rfl]
    exact hfree t ht
  have heq12 : is_equal (mkCand c.nextId ⟨tid, p1, w, .keyed k⟩)
      (mkCand (c.nextId + 1) ⟨tid, p2, w, .keyed k⟩) = true := by
    simp [is_equal, taskEq, mkCand, hashOf]
  have hins2 : insertMerge (mkCand (c.nextId + 1) ⟨tid, p2, w, .keyed k⟩)
      (c.threads ++ [mkCand c.nextId ⟨tid, p1, w, .keyed k⟩]) =
      some (c.threads ++
        [{ tid := tid, iid := c.nextId, hash := privHash k, period := min p1 p2,
           remaining := 0, wait := w, unused := 0, eqk := .keyed k, extRefs := 2 }],
        c.nextId) := by
    rw [insertMerge_append _ _ _ hfree2]
    rw [insertMerge, heq12]
    simp only [if_true]
    rw [merge_mkCand (c.nextId) (c.nextId + 1) tid p1 p2 w k]
    simp [mkCand, hm1, hm2]
  have hreg2 : do_register_thread
      ⟨c.threads ++ [mkCand c.nextId ⟨tid, p1, w, .keyed k⟩], c.nextId + 1⟩
      ⟨tid, p2, w, .keyed k⟩ =
      some (⟨c.threads ++
        [{ tid := tid, iid := c.nextId, hash := privHash k, period := min p1 p2,
           remaining := 0, wait := w, unused := 0, eqk := .keyed k, extRefs := 2 }],
        c.nextId + 2⟩, c.nextId) := by
    simp only [do_register_thread]
    rw [hins2]
  exact ⟨_, _, _, hreg1, hreg2, rfl, rfl, rfl⟩

/-- Witness for C1: a fresh registry, periods 5 then 2, key `[5]`. -/
theorem C1_register_idempotent_witness :
    (∀ t ∈ ([] : List ThreadBase), is_equal t (mkCand 0 ⟨7, 5, true, .keyed [5]⟩) = false) ∧
    5 < u32 ∧ 2 < u32 ∧
    (∃ (c1 c2 : Container) (m : ThreadBase),
      do_register_thread ⟨[], 0⟩ ⟨7, 5, true, .keyed [5]⟩ = some (c1, 0) ∧
      do_register_thread c1 ⟨7, 2, true, .keyed [5]⟩ = some (c2, 0) ∧
      c2.threads = [] ++ [m] ∧ m.iid = 0 ∧ m.period = min 5 2) :=
  ⟨by simp, by decide, by decide,
   C1_register_idempotent ⟨[], 0⟩ 7 5 2 [5] true (by simp) (by decide) (by decide)⟩

/-!
## Claim C7
-/

/-- C7: the claim places the triggers of a period-3 item at ticks 1, 4, 7,
... counted 0-indexed from the first call after registration.  In the code
a fresh item starts with `remaining = 0`, so the very first call finds it
due: for the item below (period 3, one external handle) call 0 *is* a
trigger, and call 1 is not — the schedule is 0, 3, 6, .... -/
theorem C7_counterexample :
    ((tickN ⟨7, 0, 1, 3, 0, false, 0, .keyed [1], 1⟩ 0).map
        (fun s => (tickItem s).2) = some true) ∧
    ((tickN ⟨7, 0, 1, 3, 0, false, 0, .keyed [1], 1⟩ 1).map
        (fun s => (tickItem s).2) = some false) := by
  constructor <;> decide

/-- C7 (amended): a freshly registered item starts with `remaining = 0`; an
item with period 3 and at least one external handle is triggered exactly on
calls 0, 3, 6, ... (0-indexed from the first call after registration), its
countdown after call `n` being `(3 - n % 3) % 3`, i.e. cycling 2, 1, 0;
and while an item stays alive, one call preserves `remaining < period` and
`unused < UNUSED_MAX` (for any period in `[1, 2^32)`). -/
theorem C7_schedule_amended :
    (∀ (iid : Nat) (r : RegReq), (mkCand iid r).remaining = 0) ∧
    (∀ b : ThreadBase, b.period = 3 → b.remaining = 0 → b.unused = 0 → b.extRefs ≠ 0 →
      ∀ n : Nat, tickN b n = some { b with remaining := (3 - n % 3) % 3 } ∧
        (tickN b n).map (fun s => (tickItem s).2) = some (decide (n % 3 = 0))) ∧
    (∀ t t' : ThreadBase, 1 ≤ t.period → t.period < u32 → t.remaining < t.period →
      t.unused < UNUSED_MAX → (tickItem t).1 = some t' →
      t'.remaining < t'.period ∧ t'.unused < UNUSED_MAX) := by
  refine ⟨fun iid r => rfl, ?_, ?_⟩
  · intro b h3 h0 hu hr n
    have hmain : ∀ m : Nat, tickN b m = some { b with remaining := (3 - m % 3) % 3 } := by
      intro m
      induction m with
      | zero =>
        have : ({ b with remaining := (3 - 0 % 3) % 3 } : ThreadBase) = b := by
          obtain ⟨f1, f2, f3, f4, f5, f6, f7, f8, f9⟩ := b
          simp only at h0
          simp [h0]
        rw [this]
        rfl
      | succ m ih =>
        have hstep : tickN b (m + 1) =
            (tickItem { b with remaining := (3 - m % 3) % 3 }).1 := by
          rw [tickN, ih]
        rw [hstep]
        have hcases : m % 3 = 0 ∨ m % 3 = 1 ∨ m % 3 = 2 := by omega
        have hne : ¬ ({ b with remaining := (3 - m % 3) % 3 } : ThreadBase).unused
            = UNUSED_MAX := by
          simp [hu, UNUSED_MAX]
        rcases hcases with hm | hm | hm
        · rw [tickItem_due_held _ (by simp [hm]) (by simpa using hr)]
          simp only [if_neg hne, Option.some.injEq]
          have h1 : (m + 1) % 3 = 1 := by omega
          simp [h1, h3, hm, dec_wrap 3 (by decide) (by decide)]
        · rw [tickItem_not_due _ (by simp [hm])]
          simp only [if_neg hne, Option.some.injEq]
          have h1 : (m + 1) % 3 = 2 := by omega
          simp [h1, hm, dec_wrap 2 (by decide) (by decide)]
        · rw [tickItem_not_due _ (by simp [hm])]
          simp only [if_neg hne, Option.some.injEq]
          have h1 : (m + 1) % 3 = 0 := by omega
          simp [h1, hm, dec_wrap 1 (by decide) (by decide)]
    refine ⟨hmain n, ?_⟩
    rw [hmain n]
    simp only [Option.map_some']
    by_cases hm : n % 3 = 0
    · rw [tickItem_due_held _ (by simp [hm]) (by simpa using hr)]
      simp [hm]
    · have hrem : ({ b with remaining := (3 - n % 3) % 3 } : ThreadBase).remaining ≠ 0 := by
        simp only []
        omega
      rw [tickItem_not_due _ hrem]
      simp [hm]
  · intro t t' h1 h2 h3 h4 h5
    have hu8 : (t.unused + 1) % u8 = t.unused + 1 := by
      apply Nat.mod_eq_of_lt
      unfold UNUSED_MAX at h4
      unfold u8
      omega
    have hne : ¬ t.unused = UNUSED_MAX := by omega
    by_cases h0 : t.remaining = 0
    · by_cases hr : t.extRefs = 0
      · rw [tickItem_due_unref t h0 hr] at h5
        rw [hu8] at h5
        by_cases hlt : t.unused + 1 < UNUSED_MAX
        · simp only [hlt, if_pos, ite_true] at h5
          rw [if_neg (by omega)] at h5
          cases h5
          constructor
          · simp [dec_wrap t.period h1 h2]
            omega
          · simpa using hlt
        · have h5eq : t.unused + 1 = UNUSED_MAX := by
            unfold UNUSED_MAX at h4 hlt ⊢
            omega
          simp only [hlt, ite_false] at h5
          rw [if_pos h5eq] at h5
          cases h5
      · rw [tickItem_due_held t h0 hr] at h5
        rw [if_neg hne] at h5
        cases h5
        constructor
        · simp [dec_wrap t.period h1 h2]
          omega
        · simpa using h4
    · rw [tickItem_not_due t h0] at h5
      rw [if_neg hne] at h5
      cases h5
      constructor
      · have : (t.remaining + (u32 - 1)) % u32 = t.remaining - 1 :=
          dec_wrap t.remaining (by omega) (by unfold u32 at *; omega)
        simp [this]
        omega
      · simpa using h4

/-- Witness for C7 (amended): the period-3 item after 4 calls, plus one
invariant-preserving step at period 3, countdown 2. -/
theorem C7_schedule_amended_witness :
    ((mkCand 0 ⟨7, 3, false, .keyed [1]⟩).remaining = 0) ∧
    (tickN ⟨7, 0, 1, 3, 0, false, 0, .keyed [1], 1⟩ 4 =
      some { (⟨7, 0, 1, 3, 0, false, 0, .keyed [1], 1⟩ : ThreadBase) with
              remaining := (3 - 4 % 3) % 3 }) ∧
    ((⟨7, 0, 1, 3, 1, false, 0, .keyed [1], 1⟩ : ThreadBase).remaining <
        (⟨7, 0, 1, 3, 1, false, 0, .keyed [1], 1⟩ : ThreadBase).period ∧
      (⟨7, 0, 1, 3, 1, false, 0, .keyed [1], 1⟩ : ThreadBase).unused < UNUSED_MAX) :=
  ⟨C7_schedule_amended.1 0 ⟨7, 3, false, .keyed [1]⟩,
   (C7_schedule_amended.2.1 ⟨7, 0, 1, 3, 0, false, 0, .keyed [1], 1⟩ rfl rfl rfl
      (by decide) 4).1,
   C7_schedule_amended.2.2 ⟨7, 0, 1, 3, 2, false, 0, .keyed [1], 1⟩
      ⟨7, 0, 1, 3, 1, false, 0, .keyed [1], 1⟩ (by decide) (by decide) (by decide)
      (by decide) (by decide)⟩


/-!
## Claim C3
-/

theorem tickN_one (t : ThreadBase) : tickN t 1 = (tickItem t).1 := rfl

/-- As long as the countdown has not expired, ticks just decrement it. -/
theorem tickN_countdown (t : ThreadBase) (j : Nat) (hj : j ≤ t.remaining)
    (hr : t.remaining < u32) (hu : t.unused ≠ UNUSED_MAX) :
    tickN t j = some { t with remaining := t.remaining - j } := by
  induction j with
  | zero => rfl
  | succ m ih =>
    have hstep : tickN t (m + 1) =
        (tickItem { t with remaining := t.remaining - m }).1 := by
      rw [tickN, ih (by omega)]
    rw [hstep, tickItem_not_due _ (by simp; omega), if_neg (by simpa using hu)]
    have h2 : (t.remaining - m + (u32 - 1)) % u32 = t.remaining - m - 1 :=
      dec_wrap _ (by omega) (by unfold u32 at *; omega)
    simp [h2]
    omega

/-- A due tick of a registry-only item below the liveness bound: triggered,
counter incremented. -/
theorem tick_unref_step (t : ThreadBase) (h0 : t.remaining = 0) (hr : t.extRefs = 0)
    (hu : t.unused + 1 < UNUSED_MAX) :
    (tickItem t).1 = some { t with remaining := (t.period + (u32 - 1)) % u32,
                                   unused := t.unused + 1 } := by
  rw [tickItem_due_unref t h0 hr]
  have h8 : (t.unused + 1) % u8 = t.unused + 1 :=
    Nat.mod_eq_of_lt (by unfold UNUSED_MAX at hu; unfold u8; omega)
  rw [h8, if_pos hu, if_neg (by unfold UNUSED_MAX at *; omega)]

/-- A due tick of a registry-only item at the liveness bound: erased. -/
theorem tick_unref_death (t : ThreadBase) (h0 : t.remaining = 0) (hr : t.extRefs = 0)
    (hu : t.unused + 1 = UNUSED_MAX) : (tickItem t).1 = none := by
  rw [tickItem_due_unref t h0 hr]
  have h8 : (t.unused + 1) % u8 = t.unused + 1 :=
    Nat.mod_eq_of_lt (by unfold UNUSED_MAX at hu; unfold u8; omega)
  rw [h8, if_neg (by omega), if_pos hu]

/-- C3: the claim promises eviction within `UNUSED_MAX` (= 5) calls of the
reference count dropping to zero, with the unused counter incremented each
call and reset whenever a reference appears.  In the code the counter only
moves on *due* ticks: a period-3 item with zero handles is still registered
after 5 calls (first conjunct), and a due tick taken while a reference
exists leaves a nonzero counter at 3 instead of resetting it (second
conjunct). -/
theorem C3_counterexample :
    ((tickN ⟨7, 0, 1, 3, 0, false, 0, .keyed [1], 0⟩ 5).isSome = true) ∧
    (tickItem ⟨7, 0, 1, 3, 0, false, 3, .keyed [1], 1⟩).1 =
      some ⟨7, 0, 1, 3, 2, false, 3, .keyed [1], 1⟩ := by
  constructor <;> decide

/-- C3 (amended): an item whose external reference count is zero, with
liveness counter 0 and countdown `r < period`, is evicted exactly at call
`r + 4*period + 1` — its `UNUSED_MAX`-th due tick, which is within
`UNUSED_MAX` calls exactly when `period = 1` and `r = 0` — and not before;
the unused counter is incremented at each due tick in the registry-only
state, reset to 0 by a successful merge, and left unchanged (not reset) by
a due tick taken while references exist. -/
theorem C3_eviction_amended :
    (∀ (tid iid hsh p r : Nat) (w : Bool) (k : EqKind), 1 ≤ p → p < u32 → r < p →
      tickN ⟨tid, iid, hsh, p, r, w, 0, k, 0⟩ (r + 4 * p + 1) = none ∧
      (∀ j, j ≤ r + 4 * p → (tickN ⟨tid, iid, hsh, p, r, w, 0, k, 0⟩ j).isSome)) ∧
    (∀ t : ThreadBase, t.remaining = 0 → t.extRefs = 0 → t.unused + 1 < UNUSED_MAX →
      (tickItem t).1 = some { t with remaining := (t.period + (u32 - 1)) % u32,
                                     unused := t.unused + 1 }) ∧
    (∀ a b m : ThreadBase, merge a b = some m → m.unused = 0) ∧
    (∀ t : ThreadBase, t.remaining = 0 → t.extRefs ≠ 0 → t.unused ≠ UNUSED_MAX →
      (tickItem t).1.map (fun s => s.unused) = some t.unused) := by
  refine ⟨?_, tick_unref_step, ?_, ?_⟩
  · intro tid iid hsh p r w k hp hpu hr
    have hru32 : r < u32 := by unfold u32 at *; omega
    have hpm : p - 1 < u32 := by unfold u32 at *; omega
    have hseg : ∀ (u rem : Nat), rem < u32 → u + 1 < UNUSED_MAX →
        tickN (⟨tid, iid, hsh, p, rem, w, u, k, 0⟩ : ThreadBase) (rem + 1) =
          some ⟨tid, iid, hsh, p, p - 1, w, u + 1, k, 0⟩ := by
      intro u rem hru huu
      rw [tickN_add _ rem 1]
      rw [tickN_countdown (⟨tid, iid, hsh, p, rem, w, u, k, 0⟩ : ThreadBase) rem
            (by simp) (by simpa using hru)
            (by simp only []; unfold UNUSED_MAX at huu ⊢; omega)]
      rw [Option.some_bind, tickN_one]
      rw [tick_unref_step _ (by simp) rfl (by simpa using huu)]
      simp [dec_wrap p hp hpu]
    have haliveseg : tickN (⟨tid, iid, hsh, p, p - 1, w, 4, k, 0⟩ : ThreadBase) (p - 1) =
        some ⟨tid, iid, hsh, p, 0, w, 4, k, 0⟩ := by
      rw [tickN_countdown (⟨tid, iid, hsh, p, p - 1, w, 4, k, 0⟩ : ThreadBase) (p - 1)
            (by simp) (by simpa using hpm) (by simp [UNUSED_MAX])]
      simp
    have c0 : tickN (⟨tid, iid, hsh, p, r, w, 0, k, 0⟩ : ThreadBase) (r + 1) =
        some ⟨tid, iid, hsh, p, p - 1, w, 1, k, 0⟩ :=
      hseg 0 r hru32 (by decide)
    have cyc : ∀ u : Nat, u + 2 < UNUSED_MAX →
        tickN (⟨tid, iid, hsh, p, p - 1, w, u + 1, k, 0⟩ : ThreadBase) p =
          some ⟨tid, iid, hsh, p, p - 1, w, u + 2, k, 0⟩ := by
      intro u hu
      have h := hseg (u + 1) (p - 1) hpm (by unfold UNUSED_MAX at *; omega)
      rw [show (p - 1) + 1 = p by omega] at h
      exact h
    have c1 : tickN (⟨tid, iid, hsh, p, r, w, 0, k, 0⟩ : ThreadBase) ((r + 1) + p) =
        some ⟨tid, iid, hsh, p, p - 1, w, 2, k, 0⟩ := by
      rw [tickN_add _ (r + 1) p, c0, Option.some_bind]
      exact cyc 0 (by decide)
    have c2 : tickN (⟨tid, iid, hsh, p, r, w, 0, k, 0⟩ : ThreadBase) (((r + 1) + p) + p) =
        some ⟨tid, iid, hsh, p, p - 1, w, 3, k, 0⟩ := by
      rw [tickN_add _ ((r + 1) + p) p, c1, Option.some_bind]
      exact cyc 1 (by decide)
    have c3 : tickN (⟨tid, iid, hsh, p, r, w, 0, k, 0⟩ : ThreadBase)
        ((((r + 1) + p) + p) + p) = some ⟨tid, iid, hsh, p, p - 1, w, 4, k, 0⟩ := by
      rw [tickN_add _ (((r + 1) + p) + p) p, c2, Option.some_bind]
      exact cyc 2 (by decide)
    have cAlive : tickN (⟨tid, iid, hsh, p, r, w, 0, k, 0⟩ : ThreadBase) (r + 4 * p) =
        some ⟨tid, iid, hsh, p, 0, w, 4, k, 0⟩ := by
      rw [show r + 4 * p = ((((r + 1) + p) + p) + p) + (p - 1) by omega]
      rw [tickN_add _ ((((r + 1) + p) + p) + p) (p - 1), c3, Option.some_bind]
      exact haliveseg
    constructor
    · rw [show r + 4 * p + 1 = (r + 4 * p) + 1 by omega]
      rw [tickN_add _ (r + 4 * p) 1, cAlive, Option.some_bind, tickN_one]
      exact tick_unref_death _ (by simp) rfl rfl
    · intro j hj
      have halive : (tickN (⟨tid, iid, hsh, p, r, w, 0, k, 0⟩ : ThreadBase)
          (r + 4 * p)).isSome := by
        rw [cAlive]
        rfl
      rw [show r + 4 * p = j + (r + 4 * p - j) by omega] at halive
      exact tickN_isSome_of_add _ _ _ halive
  · intro a b m h
    unfold merge at h
    by_cases hp2 : b.period < a.period
    · simp only [hp2, if_pos, ite_true] at h
      split at h
      · cases h
        rfl
      · cases h
    · simp only [hp2, ite_false] at h
      split at h
      · cases h
        rfl
      · cases h
  · intro t h0 hr hu
    rw [tickItem_due_held t h0 hr, if_neg hu]
    rfl

/-- Witness for C3 (amended): a period-2 item with countdown 1 and no
handles is evicted at call `1 + 4*2 + 1 = 10` and alive at call 9; one
registry-only due tick moves the counter 1 → 2; a merge with equal periods
and wait flags resets the counter of the survivor to 0; a due tick with a
reference present keeps the counter at 2. -/
theorem C3_eviction_amended_witness :
    (tickN ⟨7, 0, 1, 2, 1, false, 0, .keyed [1], 0⟩ (1 + 4 * 2 + 1) = none ∧
      (tickN ⟨7, 0, 1, 2, 1, false, 0, .keyed [1], 0⟩ 9).isSome) ∧
    ((tickItem ⟨7, 0, 1, 2, 0, false, 1, .keyed [1], 0⟩).1 =
      some { (⟨7, 0, 1, 2, 0, false, 1, .keyed [1], 0⟩ : ThreadBase) with
              remaining := (2 + (u32 - 1)) % u32, unused := 2 }) ∧
    ((⟨7, 0, 1, 2, 0, false, 0, .keyed [1], 1⟩ : ThreadBase).unused = 0) ∧
    ((tickItem ⟨7, 0, 1, 2, 0, false, 2, .keyed [1], 1⟩).1.map (fun s => s.unused) = some 2) :=
  ⟨⟨(C3_eviction_amended.1 7 0 1 2 1 false (.keyed [1]) (by decide) (by decide)
        (by decide)).1,
    (C3_eviction_amended.1 7 0 1 2 1 false (.keyed [1]) (by decide) (by decide)
        (by decide)).2 9 (by decide)⟩,
   C3_eviction_amended.2.1 ⟨7, 0, 1, 2, 0, false, 1, .keyed [1], 0⟩ rfl rfl (by decide),
   C3_eviction_amended.2.2.1 ⟨7, 0, 1, 2, 0, false, 3, .keyed [1], 1⟩
      ⟨7, 1, 1, 2, 0, false, 0, .keyed [1], 1⟩
      ⟨7, 0, 1, 2, 0, false, 0, .keyed [1], 1⟩ (by decide),
   C3_eviction_amended.2.2.2 ⟨7, 0, 1, 2, 0, false, 2, .keyed [1], 1⟩ rfl (by decide)
      (by decide)⟩

/-!
## Claim C9
-/

/-- C9: in every reachable pool state the pending-completions counter
`to_wait` is non-negative (the `while(to_wait > 0)` guard is what prevents
the `uint32_t` decrement from wrapping); the `wait()` loop returns exactly
when `to_wait` reaches zero, consuming one completion per pending item (and
it can return only when enough completions are available); and
`run_all_tasks` ends every tick in `pool.wait()`, so at each tick boundary
the counter is 0. -/
theorem C9_pool_wait_inv :
    (∀ p : PoolSt, PoolReach p → 0 ≤ p.toWait) ∧
    (∀ tw s tw2 s2 : Nat, pool_wait tw s = some (tw2, s2) → tw2 = 0 ∧ s2 = s - tw) ∧
    (∀ tw s : Nat, (pool_wait tw s).isSome ↔ tw ≤ s) ∧
    (∀ (items : List ThreadBase) (comp : Nat) (res : List ThreadBase × Nat × Nat),
      run_all_tasks items comp = some res → res.2.1 = 0) := by
  have hwait : ∀ tw s tw2 s2 : Nat, pool_wait tw s = some (tw2, s2) →
      tw2 = 0 ∧ s2 = s - tw := by
    intro tw
    induction tw with
    | zero =>
      intro s tw2 s2 h
      cases h
      exact ⟨rfl, rfl⟩
    | succ m ih =>
      intro s tw2 s2 h
      cases s with
      | zero => cases h
      | succ n =>
        have := ih n tw2 s2 h
        omega
  refine ⟨?_, hwait, ?_, ?_⟩
  · intro p hp
    induction hp with
    | init => decide
    | step p q hp hstep ih =>
      cases hstep with
      | add => simp only []; omega
      | complete n hq => simpa using ih
      | waitIter n hw hs => simp only []; omega
  · intro tw
    induction tw with
    | zero =>
      intro s
      simp [pool_wait]
    | succ m ih =>
      intro s
      cases s with
      | zero =>
        simp [pool_wait]
      | succ n =>
        rw [show pool_wait (m + 1) (n + 1) = pool_wait m n from rfl, ih n]
        omega
  · intro items comp res h
    unfold run_all_tasks at h
    cases hw : pool_wait (run_all_threads items).2.1.length comp with
    | none => rw [hw] at h; cases h
    | some p =>
      rw [hw] at h
      cases h
      exact (hwait _ _ p.1 p.2 hw).1

/-- Witness for C9: the reachable state after one submission, one runner
completion and one wait iteration; `pool_wait 2 3`; and one
`run_all_tasks` call over a single due item with one completion
available. -/
theorem C9_pool_wait_inv_witness :
    (0 ≤ (⟨0, 0, 0⟩ : PoolSt).toWait) ∧
    ((0 : Nat) = 0 ∧ (1 : Nat) = 3 - 2) ∧
    ((pool_wait 2 3).isSome ↔ 2 ≤ 3) ∧
    ((([{ (⟨7, 0, 1, 1, 0, false, 0, .keyed [1], 1⟩ : ThreadBase) with
           remaining := (1 + (u32 - 1)) % u32 }], 0, 0) :
        List ThreadBase × Nat × Nat).2.1 = 0) :=
  ⟨C9_pool_wait_inv.1 ⟨0, 0, 0⟩ PoolReach.init,
   C9_pool_wait_inv.2.1 2 3 0 1 (by decide),
   C9_pool_wait_inv.2.2.1 2 3,
   C9_pool_wait_inv.2.2.2 [⟨7, 0, 1, 1, 0, false, 0, .keyed [1], 1⟩] 1
      ([{ (⟨7, 0, 1, 1, 0, false, 0, .keyed [1], 1⟩ : ThreadBase) with
           remaining := (1 + (u32 - 1)) % u32 }], 0, 0) (by decide)⟩


/-!
## Claim C4
-/

/-- Runs compose, concatenating their event traces. -/
theorem wsteps_trans (s1 s2 s3 : WState) (t1 t2 : List WEv)
    (h1 : WSteps s1 t1 s2) (h2 : WSteps s2 t2 s3) : WSteps s1 (t1 ++ t2) s3 := by
  induction h2 with
  | refl => simpa using h1
  | tail b c tr ev hs hstep ih =>
    rw [← List.append_assoc]
    exact WSteps.tail _ _ _ _ _ ih hstep

/-- Along any run, begins and ends balance up to the unit of work currently
in flight. -/
theorem wsteps_balance (s s2 : WState) (tr : List WEv) (h : WSteps s tr s2) :
    countB tr + inFlight s = countE tr + inFlight s2 := by
  induction h with
  | refl => rfl
  | tail sm s3 tr ev hs hstep ih =>
    unfold countB countE at *
    rw [List.count_append, List.count_append]
    cases hstep with
    | signal =>
      have he : inFlight { sm with pending := sm.pending + 1 } = inFlight sm := rfl
      rw [he]
      simpa using ih
    | wake n hp hn hd =>
      have h1 : inFlight sm = 0 := by simp [inFlight, hp]
      have h2 : inFlight { sm with pending := n, phase := WPhase.draining } = 0 := rfl
      rw [h2]
      rw [h1] at ih
      simpa using ih
    | wakeDone n hp hn hd =>
      have h1 : inFlight sm = 0 := by simp [inFlight, hp]
      have h2 : inFlight { sm with pending := n, phase := WPhase.stopped } = 0 := rfl
      rw [h2]
      rw [h1] at ih
      simpa using ih
    | drain n hp hn =>
      have he : inFlight { sm with pending := n } = inFlight sm := rfl
      rw [he]
      simpa using ih
    | beginWork hp hn =>
      have h1 : inFlight sm = 0 := by simp [inFlight, hp]
      have h2 : inFlight { sm with phase := WPhase.working } = 1 := rfl
      rw [h1] at ih
      rw [h2]
      simp at ih ⊢
      omega
    | endWork hp =>
      have h1 : inFlight sm = 1 := by simp [inFlight, hp]
      have h2 : inFlight { sm with phase := WPhase.idle } = 0 := rfl
      rw [h1] at ih
      rw [h2]
      simp at ih ⊢
      omega

/-- Draining consumes all pending start signals without any work event. -/
theorem wsteps_drain (n : Nat) :
    WSteps ⟨n, .draining, false⟩ [] ⟨0, .draining, false⟩ := by
  induction n with
  | zero => exact WSteps.refl _
  | succ m ih =>
    have h1 : WStep ⟨m + 1, .draining, false⟩ [] ⟨m, .draining, false⟩ :=
      WStep.drain _ m rfl rfl
    have h2 : WSteps ⟨m + 1, .draining, false⟩ ([] ++ []) ⟨0, .draining, false⟩ :=
      wsteps_trans _ _ _ _ _ (WSteps.tail _ _ _ [] [] (WSteps.refl _) h1) ih
    simpa using h2

/-- C4: along every run of a worker from its spawn state, the numbers of
begin/end events satisfy `countE ≤ countB ≤ countE + 1` — at most one unit
of work is ever in flight, and units are strictly sequential (a new begin
requires the previous end); and from a state with `n + 1` pending start
signals the worker reaches `work()` in one pass, consuming *all* pending
signals (`wait` plus the `trywait` drain), so a burst of signals collapses
into a single execution. -/
theorem C4_no_overlap :
    (∀ (s2 : WState) (tr : List WEv), WSteps ⟨0, .idle, false⟩ tr s2 →
      countE tr ≤ countB tr ∧ countB tr ≤ countE tr + 1) ∧
    (∀ n : Nat, ∃ s2 : WState, WSteps ⟨n + 1, .idle, false⟩ [WEv.beginW] s2 ∧
      s2.phase = .working ∧ s2.pending = 0) := by
  constructor
  · intro s2 tr h
    have hb := wsteps_balance _ _ _ h
    have h0 : inFlight (⟨0, .idle, false⟩ : WState) = 0 := rfl
    have h1 : inFlight s2 ≤ 1 := by
      unfold inFlight
      cases s2.phase <;> simp
    rw [h0] at hb
    omega
  · intro n
    refine ⟨⟨0, .working, false⟩, ?_, rfl, rfl⟩
    have h1 : WStep ⟨n + 1, .idle, false⟩ [] ⟨n, .draining, false⟩ :=
      WStep.wake _ n rfl rfl rfl
    have h2 : WSteps ⟨n + 1, .idle, false⟩ ([] ++ []) ⟨0, .draining, false⟩ :=
      wsteps_trans _ _ _ _ _ (WSteps.tail _ _ _ [] [] (WSteps.refl _) h1) (wsteps_drain n)
    have h3 : WStep ⟨0, .draining, false⟩ [WEv.beginW] ⟨0, .working, false⟩ :=
      WStep.beginWork _ rfl rfl
    have h4 := WSteps.tail _ _ _ ([] ++ []) [WEv.beginW] h2 h3
    simpa using h4

/-- Witness for C4: the run signal-wake-begin-end emits `[beginW, endW]`,
and a burst of 3 pending signals yields a single begin. -/
theorem C4_no_overlap_witness :
    (countE [WEv.beginW, WEv.endW] ≤ countB [WEv.beginW, WEv.endW] ∧
      countB [WEv.beginW, WEv.endW] ≤ countE [WEv.beginW, WEv.endW] + 1) ∧
    (∃ s2 : WState, WSteps ⟨3, .idle, false⟩ [WEv.beginW] s2 ∧
      s2.phase = .working ∧ s2.pending = 0) :=
  ⟨C4_no_overlap.1 ⟨0, .idle, false⟩ [WEv.beginW, WEv.endW]
      (by
        have d0 : WStep ⟨0, .idle, false⟩ [] ⟨1, .idle, false⟩ := WStep.signal _
        have d1 : WStep ⟨1, .idle, false⟩ [] ⟨0, .draining, false⟩ :=
          WStep.wake _ 0 rfl rfl rfl
        have d2 : WStep ⟨0, .draining, false⟩ [WEv.beginW] ⟨0, .working, false⟩ :=
          WStep.beginWork _ rfl rfl
        have d3 : WStep ⟨0, .working, false⟩ [WEv.endW] ⟨0, .idle, false⟩ :=
          WStep.endWork _ rfl
        have h := WSteps.tail _ _ _ _ _
          (WSteps.tail _ _ _ _ _
            (WSteps.tail _ _ _ _ _
              (WSteps.tail _ _ _ _ _ (WSteps.refl _) d0) d1) d2) d3
        simpa using h),
   C4_no_overlap.2 2⟩


/-!
## Claim C2
-/

/-- The loop's `wait` counter equals the number of items triggered this
call whose `wait` flag is set. -/
theorem run_wait_counter (reg : List ThreadBase) :
    (run_all_threads reg).2.2 = waitCount (run_all_threads reg).2.1 := by
  induction reg with
  | nil => rfl
  | cons t ts ih =>
    simp only [run_all_threads]
    cases h2 : (tickItem t).2 with
    | false => simpa [waitCount] using ih
    | true =>
      cases hw : t.wait with
      | false => simpa [waitCount, List.filter_cons] using ih
      | true => simpa [waitCount, List.filter_cons] using ih

/-- Pointwise sums over a mapped list split. -/
theorem map_sum_add (S : List Nat) (f g : Nat → Nat) :
    (S.map (fun i => f i + g i)).sum = (S.map f).sum + (S.map g).sum := by
  induction S with
  | nil => rfl
  | cons a S ih => simp [ih]; omega

/-- The indicator of a member sums to at least one. -/
theorem map_ind_ge_one (S : List Nat) (i : Nat) (hi : i ∈ S) :
    1 ≤ (S.map (fun j => if j = i then 1 else 0)).sum := by
  induction S with
  | nil => cases hi
  | cons a S ih =>
    rcases List.mem_cons.mp hi with h | h
    · simp [h]
    · have := ih h
      simp only [List.map_cons, List.sum_cons]
      omega

/-- Every post event in a trace whose posts all come from `S` is counted by
the per-identity counts over `S`. -/
theorem countP_post_le_sum (S : List Nat) (w : List Ev) (h : ∀ e ∈ w, postIn S e) :
    w.countP isPostEv ≤ (S.map (fun i => w.count (Ev.post i))).sum := by
  induction w with
  | nil => simp
  | cons e w ih =>
    have hw : ∀ x ∈ w, postIn S x := fun x hx => h x (List.mem_cons_of_mem e hx)
    cases e with
    | post j =>
      have hj : j ∈ S := h (Ev.post j) (List.mem_cons_self _ _)
      have hcount : ∀ i : Nat, (Ev.post j :: w).count (Ev.post i) =
          w.count (Ev.post i) + (if i = j then 1 else 0) := by
        intro i
        rw [List.count_cons]
        by_cases hij : i = j
        · simp [hij]
        · simp [hij]
          intro hji
          exact absurd hji.symm hij
      have hmap : (S.map (fun i => (Ev.post j :: w).count (Ev.post i))).sum =
          (S.map (fun i => w.count (Ev.post i))).sum +
            (S.map (fun i => if i = j then 1 else 0)).sum := by
        rw [← map_sum_add]
        congr 1
        exact List.map_congr_left (fun i _ => hcount i)
      rw [hmap]
      have hpc : (Ev.post j :: w).countP isPostEv = w.countP isPostEv + 1 := by
        rw [List.countP_cons]
        simp [isPostEv]
      rw [hpc]
      have := map_ind_ge_one S j hj
      have := ih hw
      omega
    | trig j =>
      have hpc : (Ev.trig j :: w).countP isPostEv = w.countP isPostEv := by
        rw [List.countP_cons]
        simp [isPostEv]
      have hmap : (S.map (fun i => (Ev.trig j :: w).count (Ev.post i))).sum =
          (S.map (fun i => w.count (Ev.post i))).sum := by
        congr 1
      rw [hpc, hmap]
      exact ih hw
    | finish j =>
      have hpc : (Ev.finish j :: w).countP isPostEv = w.countP isPostEv := by
        rw [List.countP_cons]
        simp [isPostEv]
      have hmap : (S.map (fun i => (Ev.finish j :: w).count (Ev.post i))).sum =
          (S.map (fun i => w.count (Ev.post i))).sum := by
        congr 1
      rw [hpc, hmap]
      exact ih hw
    | waitRet =>
      have hpc : (Ev.waitRet :: w).countP isPostEv = w.countP isPostEv := by
        rw [List.countP_cons]
        simp [isPostEv]
      have hmap : (S.map (fun i => (Ev.waitRet :: w).count (Ev.post i))).sum =
          (S.map (fun i => w.count (Ev.post i))).sum := by
        congr 1
      rw [hpc, hmap]
      exact ih hw

/-- Per-identity counts bounded by one sum to at most the length. -/
theorem map_sum_le_length (S : List Nat) (c : Nat → Nat) (h : ∀ i ∈ S, c i ≤ 1) :
    (S.map c).sum ≤ S.length := by
  induction S with
  | nil => simp
  | cons a S ih =>
    have ha := h a (List.mem_cons_self _ _)
    have := ih (fun i hi => h i (List.mem_cons_of_mem a hi))
    simp only [List.map_cons, List.sum_cons, List.length_cons]
    omega

/-- If per-identity counts bounded by one reach the length in sum, every
member is counted at least once. -/
theorem map_sum_saturated (S : List Nat) (c : Nat → Nat) (hle : ∀ i ∈ S, c i ≤ 1)
    (hsum : S.length ≤ (S.map c).sum) : ∀ i ∈ S, 1 ≤ c i := by
  induction S with
  | nil => intro i hi; cases hi
  | cons a S ih =>
    have ha := hle a (List.mem_cons_self _ _)
    have hS : ∀ i ∈ S, c i ≤ 1 := fun i hi => hle i (List.mem_cons_of_mem a hi)
    have hbound := map_sum_le_length S c hS
    simp only [List.map_cons, List.sum_cons, List.length_cons] at hsum
    intro i hi
    rcases List.mem_cons.mp hi with h | h
    · subst h
      omega
    · exact ih hS (by omega) i h


/-- The barrier argument: in a trace that respects the semaphore
discipline, whose posts come only from the synchronous items (at most once
each, and only after the item's work finished), everything the coordinator
needs has finished strictly before its last `sem_wait.wait()` returns. -/
theorem barrier_aux (S : List Nat) (t u v : List Ev)
    (hsem : semOk t) (honly : postOnly S t) (honce : postOnce t)
    (hfbp : finishBeforePost t) (hsplit : t = u ++ Ev.waitRet :: v)
    (hcnt : u.countP isWaitEv = S.length - 1) (hn : 1 ≤ S.length) :
    ∀ i ∈ S, Ev.finish i ∈ u := by
  have hassoc : t = (u ++ [Ev.waitRet]) ++ v := by
    rw [hsplit]
    simp
  have hsub : List.Sublist (u ++ [Ev.waitRet]) t := by
    rw [hassoc]
    exact List.sublist_append_left _ _
  have htake : t.take (u.length + 1) = u ++ [Ev.waitRet] := by
    rw [hsplit, List.take_append_eq_append_take]
    rw [List.take_of_length_le (by omega)]
    congr 1
    have h1 : u.length + 1 - u.length = 1 := by omega
    rw [h1]
    rfl
  have hlen : u.length + 1 ≤ t.length := by
    rw [hsplit]
    simp
  have hcw : (u ++ [Ev.waitRet]).countP isWaitEv = S.length := by
    rw [List.countP_append, hcnt]
    have h1 : ([Ev.waitRet] : List Ev).countP isWaitEv = 1 := rfl
    omega
  have hsem2 : S.length ≤ (u ++ [Ev.waitRet]).countP isPostEv := by
    have h := hsem (u.length + 1) hlen
    rw [htake, hcw] at h
    exact h
  have honly2 : ∀ e ∈ u ++ [Ev.waitRet], postIn S e :=
    fun e he => honly e (hsub.subset he)
  have hble := countP_post_le_sum S (u ++ [Ev.waitRet]) honly2
  have hone : ∀ i ∈ S, (u ++ [Ev.waitRet]).count (Ev.post i) ≤ 1 :=
    fun i _ => le_trans (hsub.count_le _) (honce i)
  have hall : ∀ i ∈ S, 1 ≤ (u ++ [Ev.waitRet]).count (Ev.post i) := by
    apply map_sum_saturated S _ hone
    omega
  intro i hi
  have hpw : Ev.post i ∈ u ++ [Ev.waitRet] := by
    have := hall i hi
    exact List.count_pos_iff.mp (by omega)
  have hpu : Ev.post i ∈ u := by
    rcases List.mem_append.mp hpw with h | h
    · exact h
    · cases List.mem_singleton.mp h
  obtain ⟨⟨k, hk⟩, hks⟩ := List.mem_iff_get.mp hpu
  have hkt : k < t.length := by
    rw [hsplit]
    simp
    omega
  have htk : t.getD k Ev.waitRet = Ev.post i := by
    rw [hsplit]
    rw [List.getD_eq_getElem _ _ (by simp; omega)]
    rw [List.getElem_append_left hk]
    exact hks ▸ (List.get_eq_getElem u ⟨k, hk⟩).symm
  have hfb := hfbp k hkt
  rw [htk] at hfb
  have hfb2 : Ev.finish i ∈ t.take k := hfb
  have htu : t.take k = u.take k := by
    rw [hsplit, List.take_append_eq_append_take]
    have h1 : k - u.length = 0 := by omega
    rw [h1]
    simp
  rw [htu] at hfb2
  exact List.take_subset _ _ hfb2


/-- C2: in every `run_all_threads` call, the loop triggers all due items
before any waiting begins (the coordinator's event sequence is all
non-wait events, in loop order, followed by all waits), the number of waits
equals the number of items triggered this call with `wait = true`, and in
every interleaving respecting the semaphore discipline (posts only from
this tick's synchronous items, at most once each, only after their work
finished) every synchronous item's work has finished strictly before the
final wait returns — non-synchronous items are unconstrained. -/
theorem C2_tick_barrier :
    (∀ reg : List ThreadBase,
      (run_all_threads reg).2.2 = waitCount (run_all_threads reg).2.1) ∧
    (∀ (trigd : List (Nat × Bool)) (wc : Nat),
      (coordEvents trigd wc).filter (fun e => !isWaitEv e) =
        trigd.map (fun p => Ev.trig p.1) ∧
      (coordEvents trigd wc).filter isWaitEv = List.replicate wc Ev.waitRet) ∧
    (∀ (reg : List ThreadBase) (t u v : List Ev),
      semOk t → postOnly (syncIds (run_all_threads reg).2.1) t → postOnce t →
      finishBeforePost t → t = u ++ Ev.waitRet :: v →
      u.countP isWaitEv = (run_all_threads reg).2.2 - 1 →
      1 ≤ (run_all_threads reg).2.2 →
      ∀ i ∈ syncIds (run_all_threads reg).2.1, Ev.finish i ∈ u) := by
  refine ⟨run_wait_counter, ?_, ?_⟩
  · intro trigd wc
    constructor
    · unfold coordEvents
      rw [List.filter_append]
      have h1 : (trigd.map (fun p => Ev.trig p.1)).filter (fun e => !isWaitEv e) =
          trigd.map (fun p => Ev.trig p.1) := by
        rw [List.filter_eq_self]
        intro e he
        obtain ⟨p, _, rfl⟩ := List.mem_map.mp he
        rfl
      have h2 : (List.replicate wc Ev.waitRet).filter (fun e => !isWaitEv e) = [] := by
        rw [List.filter_eq_nil_iff]
        intro e he
        rw [List.eq_of_mem_replicate he]
        simp [isWaitEv]
      rw [h1, h2, List.append_nil]
    · unfold coordEvents
      rw [List.filter_append]
      have h1 : (trigd.map (fun p => Ev.trig p.1)).filter isWaitEv = [] := by
        rw [List.filter_eq_nil_iff]
        intro e he
        obtain ⟨p, _, rfl⟩ := List.mem_map.mp he
        simp [isWaitEv]
      have h2 : (List.replicate wc Ev.waitRet).filter isWaitEv =
          List.replicate wc Ev.waitRet := by
        rw [List.filter_eq_self]
        intro e he
        rw [List.eq_of_mem_replicate he]
        rfl
      rw [h1, h2, List.nil_append]
  · intro reg t u v hsem honly honce hfbp hsplit hcnt hn
    have hsl : (syncIds (run_all_threads reg).2.1).length = (run_all_threads reg).2.2 := by
      rw [run_wait_counter reg]
      simp [syncIds, waitCount]
    refine barrier_aux _ t u v hsem honly honce hfbp hsplit ?_ ?_
    · rw [hcnt, hsl]
    · rw [hsl]
      exact hn

/-- Witness for C2: two period-1 items, one synchronous; the trace triggers
both, the synchronous worker finishes and posts, the single wait returns. -/
theorem C2_tick_barrier_witness :
    ((run_all_threads
        [⟨7, 0, 1, 1, 0, true, 0, .keyed [1], 1⟩,
         ⟨7, 1, 2, 1, 0, false, 0, .keyed [2], 1⟩]).2.2 =
      waitCount (run_all_threads
        [⟨7, 0, 1, 1, 0, true, 0, .keyed [1], 1⟩,
         ⟨7, 1, 2, 1, 0, false, 0, .keyed [2], 1⟩]).2.1) ∧
    ((coordEvents [(0, true), (1, false)] 1).filter (fun e => !isWaitEv e) =
      [Ev.trig 0, Ev.trig 1]) ∧
    Ev.finish 0 ∈ [Ev.trig 0, Ev.trig 1, Ev.finish 0, Ev.post 0] := by
  refine ⟨C2_tick_barrier.1 _, ((C2_tick_barrier.2.1 [(0, true), (1, false)] 1).1).trans rfl, ?_⟩
  have honce : postOnce [Ev.trig 0, Ev.trig 1, Ev.finish 0, Ev.post 0, Ev.waitRet] := by
    intro i
    by_cases h : i = 0
    · subst h
      decide
    · simp [List.count_cons, h]
  exact C2_tick_barrier.2.2
    [⟨7, 0, 1, 1, 0, true, 0, .keyed [1], 1⟩, ⟨7, 1, 2, 1, 0, false, 0, .keyed [2], 1⟩]
    [Ev.trig 0, Ev.trig 1, Ev.finish 0, Ev.post 0, Ev.waitRet]
    [Ev.trig 0, Ev.trig 1, Ev.finish 0, Ev.post 0] []
    (by unfold semOk; decide)
    (by unfold postOnly; decide)
    honce
    (by unfold finishBeforePost; decide)
    rfl
    (by decide)
    (by decide)
    0
    (by decide)


end ConkySched
